import Mathlib

/-!
Verification of the CASPEr-GRL burst-detection pipeline.

The definitions below are a shallow embedding of the Python sources:
`locate_bursts.py` (edge detection, window padding, confirmed-burst
persistence), `csv2npy.py` (gap filling, time-axis resampling) and
`source/preprocess_data.py` (same `fill_zero_gaps`).  Real-valued numpy
arrays are modelled as `List ℚ`, 2-D arrays as `List (List ℚ)` (one inner
list per frequency channel), and numpy vector primitives (`np.diff`,
`np.where`, `np.linspace`) as the corresponding list functions.
-/

/-- `UNITS_PER_SECOND = 4` from `locate_bursts.py`. -/
def UNITS_PER_SECOND : Nat := 4

/-- `WINDOW_SIZE = 150*UNITS_PER_SECOND` from `locate_bursts.py`
(the moving-average kernel length used on the binned flux). -/
def WINDOW_SIZE : Nat := 150 * UNITS_PER_SECOND

/-- `WINDOW_PAD = 60*UNITS_PER_SECOND` from `locate_bursts.py`
(raw-sample padding added on both sides of each burst window). -/
def WINDOW_PAD : Nat := 60 * UNITS_PER_SECOND

/-- Modelled from the spec: `bin_spectrogram` (module `cont_3sig.py`, imported by
`locate_bursts.py` but not present in the sources) pools each run of
`TIME_BIN_FACTOR` contiguous time columns into one bin, so a spectrogram of raw
time length `L` yields `L / tbf` bins. -/
def bin_count (L tbf : Nat) : Nat := L / tbf

/-- `b.astype(int)` for one boolean. -/
def boolToInt (b : Bool) : Int := if b then 1 else 0

/-- `np.diff l`: `diff[i] = l[i+1] - l[i]`. -/
def np_diff (l : List Int) : List Int := List.zipWith (fun a b => a - b) l.tail l

/-- Helper for `np.where(l == v)[0]`: indices counted from `i`. -/
def whereEqAux (v : Int) : List Int → Nat → List Nat
  | [], _ => []
  | x :: xs, i => if x = v then i :: whereEqAux v xs (i + 1) else whereEqAux v xs (i + 1)

/-- `np.where(l == v)[0]`: ascending indices of the entries equal to `v`. -/
def whereEq (l : List Int) (v : Int) : List Nat := whereEqAux v l 0

/-- `starts` as computed in `get_windows`, generalized to count indices from `i`
(the source is the case `i = 0`): positions just after a `0 → 1` step of the
mask, with a start synthesized at `i` when the mask begins true
(`np.r_[0, starts]`). -/
def edge_starts_from (mask : List Bool) (i : Nat) : List Nat :=
  (if mask.headD false then [i] else []) ++
    (whereEqAux 1 (np_diff (mask.map boolToInt)) i).map (· + 1)

/-- `ends` as computed in `get_windows`, generalized to count indices from `i`:
positions just after a `1 → 0` step of the mask, with an end synthesized at
`i + mask.length` when the mask ends true (`np.r_[ends, len(rolling_mean)]`). -/
def edge_ends_from (mask : List Bool) (i : Nat) : List Nat :=
  (whereEqAux (-1) (np_diff (mask.map boolToInt)) i).map (· + 1) ++
    (if mask.getLastD false then [i + mask.length] else [])

/-- `windows = list(zip(starts, ends))` from `get_windows`
(`mask = rolling_mean > threshold` is supplied by the caller). -/
def edge_windows (mask : List Bool) : List (Nat × Nat) :=
  (edge_starts_from mask 0).zip (edge_ends_from mask 0)

/-- Interval-mode edge detection of `get_windows` with an explicit threshold:
`mask = seq > threshold`, then rising/falling edges as in the source. -/
def edge_intervals (seq : List ℚ) (threshold : ℚ) : List (Nat × Nat) :=
  edge_windows (seq.map (fun x => decide (threshold < x)))

/-- `np.mean l` (empty input gives `0/0 = 0` in ℚ; numpy would warn). -/
def np_mean (l : List ℚ) : ℚ := l.sum / l.length

/-- `np.std l ^ 2`, the population variance (`ddof = 0`, numpy's default). -/
def np_var (l : List ℚ) : ℚ := ((l.map (fun x => (x - np_mean l) ^ 2)).sum) / l.length

/-- The mask `rolling_mean > mean_all + 1 * std_all` of `get_windows`,
written without a square root: since `std = √var ≥ 0`, the comparison
`x > m + √v` is equivalent to `x > m ∧ (x - m)² > v`
(lemma `gt_mean_add_sqrt_iff` below). -/
def threshold_mask (rm : List ℚ) : List Bool :=
  rm.map (fun x => decide (np_mean rm < x ∧ np_var rm < (x - np_mean rm) ^ 2))

/-- The un-padded interval list of `get_windows`: edge detection on the
smoothed flux `rm` against the 1-sigma threshold. -/
def get_windows_raw (rm : List ℚ) : List (Nat × Nat) :=
  edge_windows (threshold_mask rm)

/-- The padding loop of `get_windows`:
`s_pad = max(0, s*TIME_BIN_FACTOR - WINDOW_PAD)`,
`e_pad = min(spec.shape[1], e*TIME_BIN_FACTOR + WINDOW_PAD)`,
computed in `Int` as in Python.  `L` is `spec.shape[1]` and `tbf` the
`TIME_BIN_FACTOR` constant of the absent `cont_3sig.py`. -/
def pad_windows (L tbf : Nat) (ws : List (Nat × Nat)) : List (Int × Int) :=
  ws.map (fun p =>
    (max 0 ((p.1 : Int) * tbf - WINDOW_PAD), min (L : Int) ((p.2 : Int) * tbf + WINDOW_PAD)))

/-- `get_windows` from the smoothed flux onward: threshold mask, rising and
falling edges, then padding/clamping into raw-index space. -/
def get_windows (rm : List ℚ) (L tbf : Nat) : List (Int × Int) :=
  pad_windows L tbf (get_windows_raw rm)

/-- Justification for the square-root-free mask: for `v ≥ 0`,
`x > m + √v ↔ (x > m ∧ (x-m)² > v)`. -/
theorem gt_mean_add_sqrt_iff (x m v : ℝ) (hv : 0 ≤ v) :
    m + Real.sqrt v < x ↔ (m < x ∧ v < (x - m) ^ 2) := by
  constructor
  · intro h
    have hs : 0 ≤ Real.sqrt v := Real.sqrt_nonneg v
    have hxm : 0 < x - m := by nlinarith
    constructor
    · linarith
    · have h2 : Real.sqrt v < x - m := by linarith
      have := Real.lt_sq_of_sqrt_lt h2
      nlinarith [this]
  · rintro ⟨h1, h2⟩
    have hxm : 0 < x - m := by linarith
    have : Real.sqrt v < x - m := by
      have := Real.sqrt_lt_sqrt hv h2
      calc Real.sqrt v < Real.sqrt ((x - m) ^ 2) := this
        _ = x - m := by
            rw [Real.sqrt_sq hxm.le]
    linarith

/-- Reference semantics of the edge detector: a left-to-right sweep over the
mask emitting one `(start, end)` pair per maximal run of `true`.  `i` is the
index of the next mask entry, `s` the start of the currently open run and the
`Bool` says whether a run is open.  The numpy diff/where computation of
`get_windows` is proved equal to this sweep in `bridge_all` below. -/
def runsAux : List Bool → Nat → Nat → Bool → List (Nat × Nat)
  | [], i, s, true => [(s, i)]
  | [], _, _, false => []
  | false :: bs, i, s, false => runsAux bs (i + 1) s false
  | true :: bs, i, _, false => runsAux bs (i + 1) i true
  | true :: bs, i, s, true => runsAux bs (i + 1) s true
  | false :: bs, i, s, true => (s, i) :: runsAux bs (i + 1) s false

theorem np_diff_nil : np_diff [] = [] := rfl

theorem np_diff_singleton (a : Int) : np_diff [a] = [] := rfl

theorem np_diff_cons (a b : Int) (l : List Int) :
    np_diff (a :: b :: l) = (b - a) :: np_diff (b :: l) := rfl

theorem np_diff_cons_zipWith (a : Int) (l : List Int) :
    np_diff (a :: l) = List.zipWith (fun x y => x - y) l (a :: l) := rfl

theorem getLast?_getD_cons {α : Type} :
    ∀ (l : List α) (a d : α), ((a :: l).getLast?).getD d = (l.getLast?).getD a := by
  intro l
  induction l with
  | nil => intro a d; rfl
  | cons b bs ih =>
    intro a d
    rw [List.getLast?_cons_cons, ih b d, ih b a]

theorem edge_starts_from_false_cons (bs : List Bool) (i : Nat) :
    edge_starts_from (false :: bs) i = edge_starts_from bs (i + 1) := by
  cases bs with
  | nil => simp [edge_starts_from, np_diff, whereEqAux]
  | cons c bs' =>
    cases c <;>
      simp [edge_starts_from, np_diff_cons, np_diff_cons_zipWith, whereEqAux, boolToInt, List.map_cons]

theorem edge_ends_from_false_cons (bs : List Bool) (i : Nat) :
    edge_ends_from (false :: bs) i = edge_ends_from bs (i + 1) := by
  cases bs with
  | nil => simp [edge_ends_from, np_diff, whereEqAux]
  | cons c bs' =>
    cases c <;>
      simp +arith [edge_ends_from, np_diff_cons, np_diff_cons_zipWith, whereEqAux, boolToInt, List.map_cons,
        List.getLastD_cons, getLast?_getD_cons]

/-- The four simultaneous induction statements tying the numpy start/end lists
to the reference sweep `runsAux`. -/
def bridgeP (m : List Bool) : Prop :=
  (∀ i s : Nat, edge_starts_from m i = (runsAux m i s false).map Prod.fst) ∧
  (∀ i s : Nat, (runsAux m (i + 1) s true).map Prod.fst =
      s :: (whereEqAux 1 (np_diff ((true :: m).map boolToInt)) i).map (· + 1)) ∧
  (∀ i s : Nat, edge_ends_from m i = (runsAux m i s false).map Prod.snd) ∧
  (∀ i s : Nat, (runsAux m (i + 1) s true).map Prod.snd =
      (whereEqAux (-1) (np_diff ((true :: m).map boolToInt)) i).map (· + 1) ++
        (if m.getLastD true then [i + 1 + m.length] else []))

theorem bridgeP_nil : bridgeP [] := by
  refine ⟨?_, ?_, ?_, ?_⟩ <;> intro i s <;>
    simp [edge_starts_from, edge_ends_from, runsAux, np_diff, whereEqAux, boolToInt]

theorem bridge_all : ∀ (n : Nat) (m : List Bool), m.length ≤ n → bridgeP m := by
  intro n
  induction n with
  | zero =>
    intro m hm
    have : m = [] := List.eq_nil_of_length_eq_zero (Nat.le_zero.mp hm)
    simpa [this] using bridgeP_nil
  | succ n ih =>
    intro m hm
    match m with
    | [] => exact bridgeP_nil
    | b :: bs =>
      have hbs : bs.length ≤ n := by
        simpa [List.length_cons] using Nat.lt_succ_iff.mp (Nat.lt_of_lt_of_le (Nat.lt_succ_self _) (by simpa [List.length_cons] using hm))
      obtain ⟨ihS, ihT, ihE, ihU⟩ := ih bs hbs
      refine ⟨?_, ?_, ?_, ?_⟩
      · -- starts of a closed sweep
        intro i s
        cases b with
        | false =>
          rw [edge_starts_from_false_cons]
          simpa only [runsAux] using ihS (i + 1) s
        | true =>
          simp only [runsAux]
          rw [ihT i i]
          simp [edge_starts_from, List.headD]
      · -- starts of an open sweep
        intro i s
        cases b with
        | true =>
          simp only [runsAux]
          rw [ihT (i + 1) s]
          simp [np_diff_cons, np_diff_cons_zipWith, whereEqAux, boolToInt, List.map_cons]
        | false =>
          simp only [runsAux, List.map_cons]
          rw [← ihS (i + 2) s, ← edge_starts_from_false_cons bs (i + 1)]
          simp [edge_starts_from, np_diff_cons, np_diff_cons_zipWith, whereEqAux, boolToInt, List.map_cons]
      · -- ends of a closed sweep
        intro i s
        cases b with
        | false =>
          rw [edge_ends_from_false_cons]
          simpa only [runsAux] using ihE (i + 1) s
        | true =>
          simp only [runsAux]
          rw [ihU i i]
          have harith : i + 1 + bs.length = i + (bs.length + 1) := by omega
          simp [edge_ends_from, List.getLastD_cons, getLast?_getD_cons, harith]
      · -- ends of an open sweep
        intro i s
        cases b with
        | true =>
          simp only [runsAux]
          rw [ihU (i + 1) s]
          simp +arith [np_diff_cons, np_diff_cons_zipWith, whereEqAux, boolToInt, List.map_cons, List.getLastD_cons, getLast?_getD_cons]
        | false =>
          simp only [runsAux, List.map_cons]
          rw [← ihE (i + 2) s, ← edge_ends_from_false_cons bs (i + 1)]
          simp +arith [edge_ends_from, np_diff_cons, np_diff_cons_zipWith, whereEqAux, boolToInt, List.map_cons,
            List.getLastD_cons, getLast?_getD_cons]

theorem zip_map_fst_snd_self {α β : Type} :
    ∀ (l : List (α × β)), (l.map Prod.fst).zip (l.map Prod.snd) = l := by
  intro l
  induction l with
  | nil => rfl
  | cons p rest ih => simp [List.zip, ih]

/-- The numpy edge computation of `get_windows` equals the reference sweep. -/
theorem edge_windows_eq_runs (mask : List Bool) :
    edge_windows mask = runsAux mask 0 0 false := by
  obtain ⟨hS, _, hE, _⟩ := bridge_all mask.length mask le_rfl
  rw [edge_windows, hS 0 0, hE 0 0, zip_map_fst_snd_self]

/-- Every pair emitted by the sweep is a well-formed interval inside the mask:
start strictly before end, end within `i + |m|`, and starts bounded below. -/
theorem runsAux_inv :
    ∀ (m : List Bool) (i s : Nat) (inR : Bool), (inR = true → s < i) →
      ∀ p ∈ runsAux m i s inR,
        p.1 < p.2 ∧ p.2 ≤ i + m.length ∧
          (inR = true → s ≤ p.1) ∧ (inR = false → i ≤ p.1) := by
  intro m
  induction m with
  | nil =>
    intro i s inR hin p hp
    cases inR with
    | true =>
      simp only [runsAux, List.mem_singleton] at hp
      subst hp
      refine ⟨hin rfl, by simp, fun _ => le_rfl, by simp⟩
    | false => simp [runsAux] at hp
  | cons b bs ih =>
    intro i s inR hin p hp
    cases b with
    | false =>
      cases inR with
      | false =>
        obtain ⟨h1, h2, _, h4⟩ := ih (i + 1) s false (by simp) p (by simpa [runsAux] using hp)
        refine ⟨h1, by simpa +arith using h2, by simp, ?_⟩
        intro _
        exact le_trans (Nat.le_succ i) (h4 rfl)
      | true =>
        simp only [runsAux, List.mem_cons] at hp
        rcases hp with rfl | hp
        · exact ⟨hin rfl, by simp, fun _ => le_rfl, by simp⟩
        · obtain ⟨h1, h2, _, h4⟩ := ih (i + 1) s false (by simp) p hp
          refine ⟨h1, by simpa +arith using h2, ?_, by simp⟩
          intro _
          exact le_trans (le_of_lt (Nat.lt_succ_of_lt (hin rfl))) (h4 rfl)
    | true =>
      cases inR with
      | false =>
        obtain ⟨h1, h2, h3, _⟩ := ih (i + 1) i true (fun _ => Nat.lt_succ_self i) p
          (by simpa [runsAux] using hp)
        refine ⟨h1, by simpa +arith using h2, by simp, fun _ => h3 rfl⟩
      | true =>
        obtain ⟨h1, h2, h3, _⟩ := ih (i + 1) s true (fun _ => Nat.lt_succ_of_lt (hin rfl)) p
          (by simpa [runsAux] using hp)
        refine ⟨h1, by simpa +arith using h2, h3, by simp⟩

/-- Consecutive pairs emitted by the sweep are disjoint and time-ordered. -/
theorem runsAux_chain :
    ∀ (m : List Bool) (i s : Nat) (inR : Bool), (inR = true → s < i) →
      List.Chain' (fun p q : Nat × Nat => p.2 ≤ q.1 ∧ p.1 < q.1) (runsAux m i s inR) := by
  intro m
  induction m with
  | nil =>
    intro i s inR hin
    cases inR <;> simp [runsAux]
  | cons b bs ih
  =>
    intro i s inR hin
    cases b with
    | false =>
      cases inR with
      | false => simpa [runsAux] using ih (i + 1) s false (by simp)
      | true =>
        simp only [runsAux]
        rw [List.chain'_cons']
        refine ⟨?_, ih (i + 1) s false (by simp)⟩
        intro q hq
        have hq' : q ∈ runsAux bs (i + 1) s false := List.mem_of_mem_head? hq
        obtain ⟨_, _, _, h4⟩ := runsAux_inv bs (i + 1) s false (by simp) q hq'
        have hiq : i + 1 ≤ q.1 := h4 rfl
        exact ⟨by omega, by have := hin rfl; omega⟩
    | true =>
      cases inR with
      | false => simpa [runsAux] using ih (i + 1) i true (fun _ => Nat.lt_succ_self i)
      | true => simpa [runsAux] using ih (i + 1) s true (fun _ => Nat.lt_succ_of_lt (hin rfl))

/-- Interval invariants transported to the numpy edge computation. -/
theorem edge_windows_inv (mask : List Bool) :
    (∀ p ∈ edge_windows mask, p.1 < p.2 ∧ p.2 ≤ mask.length) ∧
      List.Chain' (fun p q : Nat × Nat => p.2 ≤ q.1 ∧ p.1 < q.1) (edge_windows mask) := by
  rw [edge_windows_eq_runs]
  constructor
  · intro p hp
    obtain ⟨h1, h2, _⟩ := runsAux_inv mask 0 0 false (fun h => nomatch h) p hp
    exact ⟨h1, by simpa using h2⟩
  · exact runsAux_chain mask 0 0 false (fun h => nomatch h)

/-- C3: for every real-valued smoothed flux sequence, the un-padded interval
list produced by `get_windows` (threshold mask, rising and falling edges with
synthesized boundary edges) has `start < end` in every pair, consecutive pairs
non-overlapping, and pairs in strictly increasing time order. -/
theorem c3_raw_window_invariants (rm : List ℚ) :
    (∀ p ∈ get_windows_raw rm, p.1 < p.2) ∧
      List.Chain' (fun p q : Nat × Nat => p.2 ≤ q.1) (get_windows_raw rm) ∧
      List.Chain' (fun p q : Nat × Nat => p.1 < q.1) (get_windows_raw rm) := by
  obtain ⟨hmem, hchain⟩ := edge_windows_inv (threshold_mask rm)
  refine ⟨fun p hp => (hmem p hp).1, ?_, ?_⟩
  · exact List.Chain'.imp (fun p q h => h.1) hchain
  · exact List.Chain'.imp (fun p q h => h.2) hchain

/-- Bound needed for the padding step: raw interval ends never exceed the
smoothed flux length. -/
theorem get_windows_raw_le_length (rm : List ℚ) :
    ∀ p ∈ get_windows_raw rm, p.1 < p.2 ∧ p.2 ≤ rm.length := by
  intro p hp
  obtain ⟨hmem, _⟩ := edge_windows_inv (threshold_mask rm)
  have := hmem p hp
  simpa [threshold_mask] using this

/-- C1: every padded window of `get_windows` satisfies
`0 ≤ start < end ≤ L`, the start being the bin start times `TIME_BIN_FACTOR`
minus `WINDOW_PAD` clamped below at 0, the end the bin end times
`TIME_BIN_FACTOR` plus `WINDOW_PAD` clamped above at `L` — clamping silently,
by `max`/`min`, never failing.  `htbf` says the bin factor is a positive
integer; `hlen` says the smoothed flux covers at most the `L / tbf` bins of
the raw axis (`bin_count`, modelled from the spec since `cont_3sig.py` is
absent from the sources). -/
theorem c1_padded_window_bounds (rm : List ℚ) (L tbf : Nat)
    (htbf : 1 ≤ tbf) (hlen : rm.length * tbf ≤ L) :
    ∀ p ∈ get_windows rm L tbf,
      (∃ q ∈ get_windows_raw rm,
          p = (max 0 ((q.1 : Int) * tbf - WINDOW_PAD),
               min (L : Int) ((q.2 : Int) * tbf + WINDOW_PAD))) ∧
        0 ≤ p.1 ∧ p.1 < p.2 ∧ p.2 ≤ (L : Int) := by
  intro p hp
  rw [get_windows, pad_windows, List.mem_map] at hp
  obtain ⟨q, hq, rfl⟩ := hp
  obtain ⟨hlt, hle⟩ := get_windows_raw_le_length rm q hq
  refine ⟨⟨q, hq, rfl⟩, le_max_left _ _, ?_, min_le_left _ _⟩
  have h1 : (q.1 : Int) * tbf + tbf ≤ (q.2 : Int) * tbf := by
    have : ((q.1 + 1 : Nat) : Int) * tbf ≤ (q.2 : Int) * tbf := by
      have hq12 : (q.1 + 1 : Nat) ≤ q.2 := hlt
      exact mul_le_mul_of_nonneg_right (by exact_mod_cast hq12) (by positivity)
    push_cast at this
    linarith
  have h2 : (q.2 : Int) * tbf ≤ (L : Int) := by
    have : (q.2 : Nat) * tbf ≤ L := le_trans (Nat.mul_le_mul_right tbf hle) hlen
    exact_mod_cast this
  have h3 : (1 : Int) ≤ (tbf : Int) := by exact_mod_cast htbf
  have hpad : (0 : Int) ≤ (WINDOW_PAD : Int) := by positivity
  have h4 : (tbf : Int) ≤ (q.2 : Int) * tbf := by
    have hq2 : (1 : Int) ≤ (q.2 : Int) := by exact_mod_cast Nat.one_le_iff_ne_zero.mpr (by omega)
    nlinarith
  have h5 : (0 : Int) ≤ (q.1 : Int) * tbf := by positivity
  simp only [max_def, min_def]
  split <;> split <;> omega

/-- Witness for `c1_padded_window_bounds` at a concrete input: the flux
`[0,0,0,4]` (mean 1, variance 3, mask `[F,F,F,T]`), bin factor 1, raw length
4, padded window `(0, 4)`. -/
theorem c1_padded_window_bounds_witness :
    (1 ≤ 1 ∧ ([0, 0, 0, 4] : List ℚ).length * 1 ≤ 4) ∧
      ((∃ q ∈ get_windows_raw [0, 0, 0, 4],
          ((0 : Int), (4 : Int)) = (max 0 ((q.1 : Int) * 1 - WINDOW_PAD),
               min (4 : Int) ((q.2 : Int) * 1 + WINDOW_PAD))) ∧
        (0 : Int) ≤ 0 ∧ (0 : Int) < 4 ∧ (4 : Int) ≤ 4) := by
  have hm : np_mean [0, 0, 0, 4] = 1 := by norm_num [np_mean]
  have hv : np_var [0, 0, 0, 4] = 3 := by norm_num [np_var, hm]
  have hmask : threshold_mask [0, 0, 0, 4] = [false, false, false, true] := by
    simp only [threshold_mask, List.map_cons, List.map_nil, hm, hv]
    norm_num
  have hval : get_windows [0, 0, 0, 4] 4 1 = [((0 : Int), (4 : Int))] := by
    rw [get_windows, get_windows_raw, hmask]
    decide
  have hmem : ((0 : Int), (4 : Int)) ∈ get_windows [0, 0, 0, 4] 4 1 := by
    rw [hval]
    exact List.mem_singleton.mpr rfl
  exact ⟨⟨le_rfl, by decide⟩,
    c1_padded_window_bounds [0, 0, 0, 4] 4 1 le_rfl (by decide) _ hmem⟩

/-- C2: interval-mode edge detection on the smoothed sequence
`[0,0,5,5,5,0,0]` with the threshold fixed at 1 returns exactly `[(2, 5)]`. -/
theorem c2_interval_example :
    edge_intervals [0, 0, 5, 5, 5, 0, 0] 1 = [(2, 5)] := by decide

theorem np_mean_replicate (c : ℚ) (n : Nat) :
    np_mean (List.replicate (n + 1) c) = c := by
  rw [np_mean, List.sum_replicate, List.length_replicate, nsmul_eq_mul]
  rw [mul_comm, mul_div_assoc, div_self (by positivity), mul_one]

theorem np_var_replicate (c : ℚ) (n : Nat) :
    np_var (List.replicate (n + 1) c) = 0 := by
  rw [np_var, List.map_replicate, np_mean_replicate, sub_self]
  simp

theorem threshold_mask_replicate (c : ℚ) (n : Nat) :
    threshold_mask (List.replicate (n + 1) c) = List.replicate (n + 1) false := by
  rw [threshold_mask, List.map_replicate, np_mean_replicate]
  simp

theorem runsAux_replicate_false :
    ∀ (k i s : Nat), runsAux (List.replicate k false) i s false = [] := by
  intro k
  induction k with
  | zero => intro i s; rfl
  | succ k ih =>
    intro i s
    rw [List.replicate_succ]
    simpa only [runsAux] using ih (i + 1) s

/-- C5: a zero-variance (constant) smoothed flux sequence makes the
threshold degrade to the mean alone (`mean + √var = mean`), and `get_windows`
returns the empty window list instead of failing: nothing exceeds the
threshold. -/
theorem c5_constant_flux_no_windows (c : ℚ) (n L tbf : Nat) :
    np_var (List.replicate (n + 1) c) = 0 ∧
      ((np_mean (List.replicate (n + 1) c) : ℝ) +
          Real.sqrt ((np_var (List.replicate (n + 1) c) : ℝ)) =
        (np_mean (List.replicate (n + 1) c) : ℝ)) ∧
      get_windows (List.replicate (n + 1) c) L tbf = [] := by
  refine ⟨np_var_replicate c n, ?_, ?_⟩
  · rw [np_var_replicate]
    simp
  · rw [get_windows, get_windows_raw, threshold_mask_replicate, edge_windows_eq_runs,
      runsAux_replicate_false]
    rfl

/-- C4: the smoothing window length is hard-coded at the raw rate.  The code
sets `WINDOW_SIZE = 150 * UNITS_PER_SECOND` (600 raw samples) and uses it as
the kernel length on the *binned* flux inside `get_windows`; the claimed
correct value, 150 seconds times the binned samples-per-second
`UNITS_PER_SECOND / TIME_BIN_FACTOR`, differs from it for every bin factor
of at least 2. -/
theorem c4_window_size_at_raw_rate :
    WINDOW_SIZE = 150 * UNITS_PER_SECOND ∧
      ∀ tbf : Nat, 2 ≤ tbf →
        (WINDOW_SIZE : ℚ) ≠ 150 * ((UNITS_PER_SECOND : ℚ) / (tbf : ℚ)) := by
  refine ⟨rfl, ?_⟩
  intro t ht h
  have htq : (2 : ℚ) ≤ (t : ℚ) := by exact_mod_cast ht
  have ht0 : (t : ℚ) ≠ 0 := by linarith
  rw [show (WINDOW_SIZE : ℚ) = 600 by norm_num [WINDOW_SIZE, UNITS_PER_SECOND],
    show (UNITS_PER_SECOND : ℚ) = 4 by norm_num [UNITS_PER_SECOND]] at h
  have h' : (600 : ℚ) * t = 150 * 4 := by
    field_simp at h
    linarith
  have : (t : ℚ) = 1 := by linarith
  linarith

/-- Witness for `c4_window_size_at_raw_rate` at bin factor 4:
`600 ≠ 150 * (4 / 4)`. -/
theorem c4_window_size_at_raw_rate_witness :
    2 ≤ 4 ∧ (WINDOW_SIZE : ℚ) ≠ 150 * ((UNITS_PER_SECOND : ℚ) / ((4 : Nat) : ℚ)) :=
  ⟨by norm_num, c4_window_size_at_raw_rate.2 4 (by norm_num)⟩

/-- `new_num_samples = int(values.shape[0] * 4 / 10)` from `csv_to_npy`:
the truncated 10 Hz → 4 Hz resampling length (`int()` truncates, which is
`floor` for the non-negative values arising here). -/
def new_num_samples (old_len : Nat) : Nat := old_len * 4 / 10

/-- `np.linspace a b n` with `endpoint=True`: `n` evenly spaced values from
`a` to `b` inclusive; numpy returns `[a]` for `n = 1` and `[]` for `n = 0`. -/
def np_linspace (a b : ℚ) (n : Nat) : List ℚ :=
  match n with
  | 0 => []
  | 1 => [a]
  | k + 2 => (List.range (k + 2)).map (fun (i : Nat) => a + (b - a) * (i : ℚ) / ((k : ℚ) + 1))

/-- The resampled timestamp axis of `csv_to_npy`:
`np.linspace(times_float[0], times_float[-1], new_num_samples)` (timestamps
modelled as exact rationals). -/
def csv_times_resampled (times : List ℚ) : List ℚ :=
  np_linspace (times.headD 0) (times.getLastD 0) (new_num_samples times.length)

theorem headD_eq_getD {α : Type} (l : List α) (d : α) : l.headD d = l.getD 0 d := by
  cases l <;> rfl

theorem getD_default_irrel {α : Type} (l : List α) (i : Nat) (hi : i < l.length) (d d' : α) :
    l.getD i d = l.getD i d' := by
  rw [List.getD_eq_getElem l d hi, List.getD_eq_getElem l d' hi]

theorem getLastD_eq_getD {α : Type} :
    ∀ (l : List α) (d : α), l.getLastD d = l.getD (l.length - 1) d := by
  intro l
  induction l with
  | nil => intro d; rfl
  | cons a l ih =>
    intro d
    cases l with
    | nil => rfl
    | cons b bs =>
      have h1 : (a :: b :: bs).getLastD d = (b :: bs).getLastD a := by
        rw [List.getLastD_eq_getLast?, List.getLastD_eq_getLast?, getLast?_getD_cons]
      rw [h1, ih a]
      have hlen : (b :: bs).length - 1 < (b :: bs).length := by simp
      rw [getD_default_irrel (b :: bs) _ hlen a d]
      simp

theorem np_linspace_length (a b : ℚ) (n : Nat) : (np_linspace a b n).length = n := by
  match n with
  | 0 => rfl
  | 1 => rfl
  | k + 2 =>
    rw [show np_linspace a b (k + 2) =
        (List.range (k + 2)).map (fun (i : Nat) => a + (b - a) * (i : ℚ) / ((k : ℚ) + 1)) from
      rfl]
    rw [List.length_map, List.length_range]

theorem np_linspace_getD (a b : ℚ) (k i : Nat) (hi : i < k + 2) :
    (np_linspace a b (k + 2)).getD i 0 = a + (b - a) * (i : ℚ) / ((k : ℚ) + 1) := by
  have hlen : i <
      ((List.range (k + 2)).map (fun (j : Nat) => a + (b - a) * (j : ℚ) / ((k : ℚ) + 1))).length := by
    rw [List.length_map, List.length_range]
    exact hi
  rw [show np_linspace a b (k + 2) =
      (List.range (k + 2)).map (fun (j : Nat) => a + (b - a) * (j : ℚ) / ((k : ℚ) + 1)) from rfl]
  rw [List.getD_eq_getElem _ _ hlen]
  rw [List.getElem_map, List.getElem_range]

/-- C7 (amended): the resampled time axis has length
`floor(old_len * 4 / 10)`; whenever that length is at least 2, its points are
evenly spaced and its first and last values equal the first and last input
timestamps.  (For length 1, `np.linspace` returns only the first input
timestamp — see `c7_length_one_counterexample`.) -/
theorem c7_resampled_axis (times : List ℚ) :
    (csv_times_resampled times).length = new_num_samples times.length ∧
      (2 ≤ new_num_samples times.length →
        (csv_times_resampled times).headD 0 = times.headD 0 ∧
          (csv_times_resampled times).getLastD 0 = times.getLastD 0 ∧
          ∀ i : Nat, i + 1 < new_num_samples times.length →
            (csv_times_resampled times).getD (i + 1) 0 -
                (csv_times_resampled times).getD i 0 =
              (times.getLastD 0 - times.headD 0) /
                ((new_num_samples times.length : ℚ) - 1)) := by
  constructor
  · rw [csv_times_resampled, np_linspace_length]
  · intro h2
    obtain ⟨k, hk⟩ : ∃ k, new_num_samples times.length = k + 2 :=
      ⟨new_num_samples times.length - 2, by omega⟩
    have hk1 : ((k : ℚ) + 1) ≠ 0 := by positivity
    rw [csv_times_resampled, hk]
    refine ⟨?_, ?_, ?_⟩
    · rw [headD_eq_getD, np_linspace_getD _ _ _ 0 (by omega)]
      simp
    · rw [getLastD_eq_getD, np_linspace_length]
      rw [show k + 2 - 1 = k + 1 from rfl, np_linspace_getD _ _ _ (k + 1) (by omega)]
      have h1 : ((k + 1 : Nat) : ℚ) = (k : ℚ) + 1 := by push_cast; ring
      rw [h1]
      field_simp
    · intro i hi
      rw [np_linspace_getD _ _ _ (i + 1) (by omega), np_linspace_getD _ _ _ i (by omega)]
      have h2 : ((k + 2 : Nat) : ℚ) - 1 = (k : ℚ) + 1 := by push_cast; ring
      have h3 : ((i + 1 : Nat) : ℚ) = (i : ℚ) + 1 := by push_cast; ring
      rw [h2, h3]
      field_simp
      ring

/-- Witness for `c7_resampled_axis`: five input samples resample to
`floor(5·4/10) = 2` timestamps whose first and last match the input ends. -/
theorem c7_resampled_axis_witness :
    2 ≤ new_num_samples ([0, 10, 20, 30, 40] : List ℚ).length ∧
      (csv_times_resampled [0, 10, 20, 30, 40]).headD 0 =
          ([0, 10, 20, 30, 40] : List ℚ).headD 0 ∧
        (csv_times_resampled [0, 10, 20, 30, 40]).getLastD 0 =
          ([0, 10, 20, 30, 40] : List ℚ).getLastD 0 := by
  have h := (c7_resampled_axis [0, 10, 20, 30, 40]).2 (by decide)
  exact ⟨by decide, h.1, h.2.1⟩

/-- C7 counterexample: three input samples give `new_num_samples = 1`, and
`np.linspace` then returns only the first timestamp, so the last output
timestamp (0) differs from the last input timestamp (10), refuting the
unconditional claim. -/
theorem c7_length_one_counterexample :
    csv_times_resampled [0, 5, 10] = [0] ∧
      (csv_times_resampled [0, 5, 10]).getLastD 0 ≠ ([0, 5, 10] : List ℚ).getLastD 0 := by
  constructor <;> decide

/-- Two-digit zero-padded decimal field of a time-of-day string. -/
def two_digit (n : Nat) : String := (if n < 10 then "0" else "") ++ toString n

/-- Models `np.datetime_as_string(t_start, unit="s").split("T")[-1]` from
`select_and_save_bursts` for a timestamp of `t` whole seconds: the
`"HH:MM:SS"` time-of-day part of the ISO string. -/
def time_of_day_str (t : Nat) : String :=
  two_digit (t / 3600 % 24) ++ ":" ++ two_digit (t / 60 % 60) ++ ":" ++ two_digit (t % 60)

/-- `time_str.replace(":", "")` from `select_and_save_bursts`. -/
def strip_colons (s : String) : String := s.replace ":" ""

/-- `spec[:, start:end]`: every frequency channel sliced to `[start, end)`. -/
def np_slice (spec : List (List ℚ)) (s e : Nat) : List (List ℚ) :=
  spec.map (fun row => (row.drop s).take (e - s))

/-- The persistence loop at the end of `select_and_save_bursts`:
`for (start, end), sel in zip(windows, confirmed): if sel: np.save(...)`.
Result: the `(file name, saved array)` pairs in save order, each file holding
`spec[:, start:end]` under `f"{file_prefix}-{time_str}.npy"`. -/
def save_loop (spec : List (List ℚ)) (times : List Nat) (pre : String) :
    List ((Nat × Nat) × Bool) → List (String × List (List ℚ))
  | [] => []
  | (w, sel) :: rest =>
    if sel then
      (pre ++ "-" ++ strip_colons (time_of_day_str (times.getD w.1 0)) ++ ".npy",
          np_slice spec w.1 w.2) :: save_loop spec times pre rest
    else save_loop spec times pre rest

/-- `ncols = min(4, n_bursts); nrows = int(np.ceil(n_bursts / ncols))` from
`select_and_save_bursts`; Python raises `ZeroDivisionError` when `ncols = 0`,
modelled as `none`. -/
def subplot_grid (n_bursts : Nat) : Option (Nat × Nat) :=
  let ncols := min 4 n_bursts
  if ncols = 0 then none
  else some ((n_bursts + ncols - 1) / ncols, ncols)

/-- `select_and_save_bursts`: builds the subplot grid (raising on an empty
window list, modelled as `none`), presents the candidates, then persists the
selected slices.  `some saves` is the list of files written. -/
def select_and_save_bursts (spec : List (List ℚ)) (times : List Nat)
    (ws : List (Nat × Nat)) (confirmed : List Bool) (pre : String) :
    Option (List (String × List (List ℚ))) :=
  match subplot_grid ws.length with
  | none => none
  | some _ => some (save_loop spec times pre (ws.zip confirmed))

theorem range_filter_succ_map {beta : Type} (n : Nat) (c : Bool) (cf' : List Bool)
    (entry : Nat → beta) :
    ((List.range (n + 1)).filter (fun k => (c :: cf').getD k false)).map entry =
      (if c then [entry 0] else []) ++
        ((List.range n).filter (fun k => cf'.getD k false)).map (entry ∘ Nat.succ) := by
  rw [List.range_succ_eq_map, List.filter_cons]
  have hcomp : ((fun k => (c :: cf').getD k false) ∘ Nat.succ) = fun k => cf'.getD k false := by
    funext k
    simp [Function.comp, List.getD_cons_succ]
  rw [List.filter_map, hcomp]
  cases c with
  | true => simp [List.map_map]
  | false => simp [List.map_map]

theorem save_loop_eq (spec : List (List ℚ)) (times : List Nat) (pre : String) :
    ∀ (ws : List (Nat × Nat)) (confirmed : List Bool),
      ws.length = confirmed.length →
      save_loop spec times pre (ws.zip confirmed) =
        ((List.range ws.length).filter (fun k => confirmed.getD k false)).map
          (fun k =>
            (pre ++ "-" ++
                strip_colons (time_of_day_str (times.getD (ws.getD k (0, 0)).1 0)) ++ ".npy",
              np_slice spec (ws.getD k (0, 0)).1 (ws.getD k (0, 0)).2)) := by
  intro ws
  induction ws with
  | nil =>
    intro confirmed _
    rfl
  | cons w ws' ih =>
    intro confirmed hlen
    cases confirmed with
    | nil => simp at hlen
    | cons c cf' =>
      have hlen' : ws'.length = cf'.length := by simpa using hlen
      rw [List.zip_cons_cons, List.length_cons]
      rw [range_filter_succ_map ws'.length c cf']
      have hent :
          ((fun k =>
              (pre ++ "-" ++
                  strip_colons
                    (time_of_day_str (times.getD ((w :: ws').getD k (0, 0)).1 0)) ++ ".npy",
                np_slice spec ((w :: ws').getD k (0, 0)).1 ((w :: ws').getD k (0, 0)).2)) ∘
            Nat.succ) =
          fun k =>
            (pre ++ "-" ++
                strip_colons (time_of_day_str (times.getD (ws'.getD k (0, 0)).1 0)) ++ ".npy",
              np_slice spec (ws'.getD k (0, 0)).1 (ws'.getD k (0, 0)).2) := by
        funext k
        simp [Function.comp, List.getD_cons_succ]
      rw [hent, ← ih cf' hlen']
      cases c with
      | true => rfl
      | false => rfl

/-- C6: with a same-length decision list, exactly the windows whose decision
is `True` are persisted, each exactly once and in order; each saved array is
exactly the slice `spec[:, start:end]`, and each file name is the
caller-supplied source prefix, a `"-"` separator, the second-resolution
time-of-day of the window start timestamp with `":"` separators removed, and
the `".npy"` extension. -/
theorem c6_persisted_exactly_confirmed (spec : List (List ℚ)) (times : List Nat)
    (ws : List (Nat × Nat)) (confirmed : List Bool) (pre : String)
    (hlen : ws.length = confirmed.length) :
    (select_and_save_bursts spec times ws confirmed pre).getD [] =
      ((List.range ws.length).filter (fun k => confirmed.getD k false)).map
        (fun k =>
          (pre ++ "-" ++
              strip_colons (time_of_day_str (times.getD (ws.getD k (0, 0)).1 0)) ++ ".npy",
            np_slice spec (ws.getD k (0, 0)).1 (ws.getD k (0, 0)).2)) := by
  cases ws with
  | nil => rfl
  | cons w ws' =>
    have hne : ¬ (min 4 (w :: ws').length = 0) := by
      simp [Nat.min_eq_zero_iff]
    have h1 : select_and_save_bursts spec times (w :: ws') confirmed pre =
        some (save_loop spec times pre ((w :: ws').zip confirmed)) := by
      rw [select_and_save_bursts, subplot_grid]
      simp only [if_neg hne]
    rw [h1, Option.getD_some]
    exact save_loop_eq spec times pre (w :: ws') confirmed hlen

/-- Witness for `c6_persisted_exactly_confirmed`: two candidate windows over a
2-channel spectrogram, only the first confirmed. -/
theorem c6_persisted_exactly_confirmed_witness :
    ([((0 : Nat), (2 : Nat)), (1, 3)].length = [true, false].length) ∧
      (select_and_save_bursts [[1, 2, 3], [4, 5, 6]] [3661, 3662, 3663]
            [(0, 2), (1, 3)] [true, false] "st").getD [] =
        ((List.range ([((0 : Nat), (2 : Nat)), (1, 3)] : List (Nat × Nat)).length).filter
            (fun k => ([true, false] : List Bool).getD k false)).map
          (fun k =>
            ("st" ++ "-" ++
                strip_colons
                  (time_of_day_str
                    (([3661, 3662, 3663] : List Nat).getD
                      ((([((0 : Nat), (2 : Nat)), (1, 3)] : List (Nat × Nat)).getD k (0, 0)).1)
                      0)) ++ ".npy",
              np_slice [[1, 2, 3], [4, 5, 6]]
                (([((0 : Nat), (2 : Nat)), (1, 3)] : List (Nat × Nat)).getD k (0, 0)).1
                (([((0 : Nat), (2 : Nat)), (1, 3)] : List (Nat × Nat)).getD k (0, 0)).2)) :=
  ⟨rfl, c6_persisted_exactly_confirmed [[1, 2, 3], [4, 5, 6]] [3661, 3662, 3663]
    [(0, 2), (1, 3)] [true, false] "st" rfl⟩

/-- C10: `select_and_save_bursts` fails before presenting anything exactly on
the empty candidate list: `ncols = min(4, 0) = 0` makes the subplot-grid
division raise `ZeroDivisionError` (modelled as `none`); for a non-empty
window list the grid computation succeeds. -/
theorem c10_empty_windows_raise (spec : List (List ℚ)) (times : List Nat)
    (confirmed : List Bool) (pre : String) (ws : List (Nat × Nat)) :
    select_and_save_bursts spec times ws confirmed pre = none ↔ ws = [] := by
  cases ws with
  | nil => simp [select_and_save_bursts, subplot_grid]
  | cons w ws' =>
    have hne : ¬ (min 4 (w :: ws').length = 0) := by
      simp [Nat.min_eq_zero_iff]
    simp [select_and_save_bursts, subplot_grid, if_neg hne]

/-- Shorthand for reading entry `i` of a channel (out-of-range reads 0; all
uses below stay in range). -/
def getQ (col : List ℚ) (i : Nat) : ℚ := col.getD i 0

/-- Index of the nearest non-zero entry strictly below `i` (the left
interpolation neighbour after `s.replace(0, np.nan)` in `fill_zero_gaps`:
zero is the gap sentinel, non-zero entries are the valid points). -/
def prevNZ (col : List ℚ) : Nat → Option Nat
  | 0 => none
  | i + 1 => if getQ col i ≠ 0 then some i else prevNZ col i

/-- Fuelled upward search for the nearest non-zero entry from `j` on. -/
def nextNZAux (col : List ℚ) : Nat → Nat → Option Nat
  | _, 0 => none
  | j, fuel + 1 => if getQ col j ≠ 0 then some j else nextNZAux col (j + 1) fuel

/-- Index of the nearest non-zero entry strictly above `i` within the
channel (the right interpolation neighbour). -/
def nextNZ (col : List ℚ) (i : Nat) : Option Nat :=
  nextNZAux col (i + 1) (col.length - (i + 1))

/-- The pandas `interpolate(limit_direction="both")` value at a gap position
`i`: linear interpolation between the nearest valid neighbours when both
exist, flat extension from the single neighbour at the boundaries, and 0 when
the channel has no valid point (that case is guarded out by `fill_zero_gaps`).
-/
def interpAt (col : List ℚ) (i : Nat) : ℚ :=
  match prevNZ col i, nextNZ col i with
  | some j, some k =>
      getQ col j + (getQ col k - getQ col j) * ((i : ℚ) - (j : ℚ)) / ((k : ℚ) - (j : ℚ))
  | some j, none => getQ col j
  | none, some k => getQ col k
  | none, none => 0

/-- Entry `i` of a channel after
`s.replace(0, np.nan).interpolate(limit_direction="both")`: non-zero entries
are kept, zero entries are interpolated. -/
def fillVal (col : List ℚ) (i : Nat) : ℚ :=
  if getQ col i ≠ 0 then getQ col i else interpAt col i

/-- One channel of `fill_zero_gaps`: interpolate only when the channel has a
non-zero sample (`if np.any(col != 0)`), otherwise return it unchanged. -/
def fill_channel (col : List ℚ) : List ℚ :=
  if col.any (fun x => decide (x ≠ 0)) then (List.range col.length).map (fillVal col)
  else col

/-- `fill_zero_gaps` from `csv2npy.py` / `source/preprocess_data.py`: each
frequency channel is gap-filled independently along the time axis. -/
def fill_zero_gaps (m : List (List ℚ)) : List (List ℚ) := m.map fill_channel

theorem getQ_eq_getElem (col : List ℚ) (i : Nat) (hi : i < col.length) :
    getQ col i = col[i] := List.getD_eq_getElem col 0 hi

theorem getQ_zero_of_le (col : List ℚ) (i : Nat) (hi : col.length ≤ i) :
    getQ col i = 0 := List.getD_eq_default col 0 hi

theorem prevNZ_spec (col : List ℚ) :
    ∀ (i j : Nat), prevNZ col i = some j →
      j < i ∧ getQ col j ≠ 0 ∧ ∀ t, j < t → t < i → getQ col t = 0 := by
  intro i
  induction i with
  | zero => intro j h; simp [prevNZ] at h
  | succ i ih =>
    intro j h
    rw [prevNZ] at h
    by_cases hi : getQ col i ≠ 0
    · rw [if_pos hi] at h
      obtain rfl : i = j := by simpa using h
      exact ⟨Nat.lt_succ_self i, hi, fun t ht1 ht2 => by omega⟩
    · rw [if_neg hi] at h
      obtain ⟨h1, h2, h3⟩ := ih j h
      refine ⟨Nat.lt_succ_of_lt h1, h2, fun t ht1 ht2 => ?_⟩
      by_cases hti : t = i
      · subst hti
        simpa using hi
      · exact h3 t ht1 (by omega)

theorem prevNZ_none (col : List ℚ) :
    ∀ (i : Nat), prevNZ col i = none → ∀ t, t < i → getQ col t = 0 := by
  intro i
  induction i with
  | zero => intro _ t ht; omega
  | succ i ih =>
    intro h t ht
    rw [prevNZ] at h
    by_cases hi : getQ col i ≠ 0
    · rw [if_pos hi] at h
      cases h
    · rw [if_neg hi] at h
      by_cases hti : t = i
      · subst hti
        simpa using hi
      · exact ih h t (by omega)

theorem prevNZ_intro (col : List ℚ) :
    ∀ (i j : Nat), j < i → getQ col j ≠ 0 → (∀ t, j < t → t < i → getQ col t = 0) →
      prevNZ col i = some j := by
  intro i
  induction i with
  | zero => intro j h; omega
  | succ i ih =>
    intro j hj hnz hz
    rw [prevNZ]
    by_cases hji : j = i
    · subst hji
      rw [if_pos hnz]
    · have hji' : j < i := by omega
      have hzi : getQ col i = 0 := hz i hji' (Nat.lt_succ_self i)
      rw [if_neg (by simpa using hzi)]
      exact ih j hji' hnz (fun t ht1 ht2 => hz t ht1 (by omega))

theorem nextNZAux_spec (col : List ℚ) :
    ∀ (fuel j k : Nat), nextNZAux col j fuel = some k →
      j ≤ k ∧ k < j + fuel ∧ getQ col k ≠ 0 ∧ ∀ t, j ≤ t → t < k → getQ col t = 0 := by
  intro fuel
  induction fuel with
  | zero => intro j k h; simp [nextNZAux] at h
  | succ fuel ih =>
    intro j k h
    rw [nextNZAux] at h
    by_cases hj : getQ col j ≠ 0
    · rw [if_pos hj] at h
      obtain rfl : j = k := by simpa using h
      exact ⟨le_rfl, by omega, hj, fun t ht1 ht2 => by omega⟩
    · rw [if_neg hj] at h
      obtain ⟨h1, h2, h3, h4⟩ := ih (j + 1) k h
      refine ⟨by omega, by omega, h3, fun t ht1 ht2 => ?_⟩
      by_cases htj : t = j
      · subst htj
        simpa using hj
      · exact h4 t (by omega) ht2

theorem nextNZAux_none (col : List ℚ) :
    ∀ (fuel j : Nat), nextNZAux col j fuel = none →
      ∀ t, j ≤ t → t < j + fuel → getQ col t = 0 := by
  intro fuel
  induction fuel with
  | zero => intro j _ t ht1 ht2; omega
  | succ fuel ih =>
    intro j h t ht1 ht2
    rw [nextNZAux] at h
    by_cases hj : getQ col j ≠ 0
    · rw [if_pos hj] at h
      cases h
    · rw [if_neg hj] at h
      by_cases htj : t = j
      · subst htj
        simpa using hj
      · exact ih (j + 1) h t (by omega) (by omega)

theorem nextNZAux_intro (col : List ℚ) :
    ∀ (fuel j k : Nat), j ≤ k → k < j + fuel → getQ col k ≠ 0 →
      (∀ t, j ≤ t → t < k → getQ col t = 0) → nextNZAux col j fuel = some k := by
  intro fuel
  induction fuel with
  | zero => intro j k h1 h2; omega
  | succ fuel ih =>
    intro j k h1 h2 hnz hz
    rw [nextNZAux]
    by_cases hjk : j = k
    · subst hjk
      rw [if_pos hnz]
    · have hz0 : getQ col j = 0 := hz j le_rfl (by omega)
      rw [if_neg (by simpa using hz0)]
      exact ih (j + 1) k (by omega) (by omega) hnz (fun t ht1 ht2 => hz t (by omega) ht2)

theorem nextNZ_spec (col : List ℚ) (i k : Nat) (h : nextNZ col i = some k) :
    i < k ∧ k < col.length ∧ getQ col k ≠ 0 ∧ ∀ t, i < t → t < k → getQ col t = 0 := by
  obtain ⟨h1, h2, h3, h4⟩ := nextNZAux_spec col (col.length - (i + 1)) (i + 1) k h
  exact ⟨by omega, by omega, h3, fun t ht1 ht2 => h4 t (by omega) ht2⟩

theorem nextNZ_none (col : List ℚ) (i : Nat) (h : nextNZ col i = none) :
    ∀ t, i < t → t < col.length → getQ col t = 0 := by
  intro t ht1 ht2
  exact nextNZAux_none col (col.length - (i + 1)) (i + 1) h t (by omega) (by omega)

theorem nextNZ_intro (col : List ℚ) (i k : Nat) (h1 : i < k) (h2 : k < col.length)
    (hnz : getQ col k ≠ 0) (hz : ∀ t, i < t → t < k → getQ col t = 0) :
    nextNZ col i = some k :=
  nextNZAux_intro col (col.length - (i + 1)) (i + 1) k (by omega) (by omega) hnz
    (fun t ht1 ht2 => hz t (by omega) ht2)

theorem fill_channel_length (col : List ℚ) : (fill_channel col).length = col.length := by
  rw [fill_channel]
  split
  · rw [List.length_map, List.length_range]
  · rfl

theorem all_zero_of_not_any (col : List ℚ)
    (h : ¬ col.any (fun x => decide (x ≠ 0)) = true) :
    ∀ t, t < col.length → getQ col t = 0 := by
  intro t ht
  rw [getQ_eq_getElem col t ht]
  by_contra hne
  exact h (List.any_eq_true.mpr ⟨col[t], List.getElem_mem ht, by simpa using hne⟩)

theorem interpAt_zero_of_all_zero (col : List ℚ)
    (hall : ∀ t, t < col.length → getQ col t = 0) (i : Nat) : interpAt col i = 0 := by
  rw [interpAt]
  have hz : ∀ t, getQ col t = 0 := by
    intro t
    by_cases ht : t < col.length
    · exact hall t ht
    · exact getQ_zero_of_le col t (by omega)
  cases hp : prevNZ col i with
  | some j =>
    obtain ⟨_, hnz, _⟩ := prevNZ_spec col i j hp
    exact absurd (hz j) hnz
  | none =>
    cases hn : nextNZ col i with
    | some k =>
      obtain ⟨_, _, hnz, _⟩ := nextNZ_spec col i k hn
      exact absurd (hz k) hnz
    | none => rfl

theorem getQ_fill_channel (col : List ℚ) (i : Nat) (hi : i < col.length) :
    getQ (fill_channel col) i = fillVal col i := by
  rw [fill_channel]
  by_cases hany : col.any (fun x => decide (x ≠ 0)) = true
  · rw [if_pos hany]
    have hlen : i < ((List.range col.length).map (fillVal col)).length := by
      rw [List.length_map, List.length_range]
      exact hi
    rw [getQ, List.getD_eq_getElem _ _ hlen, List.getElem_map, List.getElem_range]
  · rw [if_neg hany]
    have h0 : getQ col i = 0 := all_zero_of_not_any col hany i hi
    rw [fillVal, if_neg (by simpa using h0), h0,
      interpAt_zero_of_all_zero col (all_zero_of_not_any col hany) i]

theorem fill_channel_all_zero (col : List ℚ) (h : ∀ x ∈ col, x = 0) :
    fill_channel col = col := by
  rw [fill_channel, if_neg]
  simp only [List.any_eq_true, not_exists, not_and]
  intro x hx
  simp [h x hx]

theorem fill_channel_preserves (col : List ℚ) (j : Nat) (h : getQ col j ≠ 0) :
    getQ (fill_channel col) j = getQ col j := by
  by_cases hj : j < col.length
  · rw [getQ_fill_channel col j hj, fillVal, if_pos h]
  · exact absurd (getQ_zero_of_le col j (by omega)) h

theorem getD_map_fill (m : List (List ℚ)) (i : Nat) (hi : i < m.length) :
    (m.map fill_channel).getD i [] = fill_channel (m.getD i []) := by
  have hi' : i < (m.map fill_channel).length := by
    rw [List.length_map]
    exact hi
  rw [List.getD_eq_getElem _ _ hi', List.getElem_map, List.getD_eq_getElem _ _ hi]

/-- C8: `fill_zero_gaps` returns every all-zero frequency channel unchanged,
and in channels with at least one non-zero sample it keeps every non-zero
sample as is — only zero (gap) samples are replaced. -/
theorem c8_gap_filler_channelwise (m : List (List ℚ)) (i : Nat) (hi : i < m.length) :
    ((∀ x ∈ m.getD i [], x = 0) → (fill_zero_gaps m).getD i [] = m.getD i []) ∧
      (∀ j : Nat, (m.getD i []).getD j 0 ≠ 0 →
        ((fill_zero_gaps m).getD i []).getD j 0 = (m.getD i []).getD j 0) := by
  rw [fill_zero_gaps, getD_map_fill m i hi]
  constructor
  · intro hz
    exact fill_channel_all_zero (m.getD i []) hz
  · intro j hj
    exact fill_channel_preserves (m.getD i []) j hj

/-- Witness for `c8_gap_filler_channelwise` on `[[0, 0], [1, 0]]`: channel 0
is all-zero and returned unchanged; the non-zero sample of channel 1 is
preserved. -/
theorem c8_gap_filler_channelwise_witness :
    (0 < ([[0, 0], [1, 0]] : List (List ℚ)).length ∧
        1 < ([[0, 0], [1, 0]] : List (List ℚ)).length) ∧
      (fill_zero_gaps [[0, 0], [1, 0]]).getD 0 [] =
          ([[0, 0], [1, 0]] : List (List ℚ)).getD 0 [] ∧
        ((fill_zero_gaps [[0, 0], [1, 0]]).getD 1 []).getD 0 0 =
          (([[0, 0], [1, 0]] : List (List ℚ)).getD 1 []).getD 0 0 :=
  ⟨⟨by decide, by decide⟩,
    (c8_gap_filler_channelwise [[0, 0], [1, 0]] 0 (by decide)).1 (by decide),
    (c8_gap_filler_channelwise [[0, 0], [1, 0]] 1 (by decide)).2 0 (by decide)⟩

theorem interp_midpoint_zero (A B xi : ℚ) (hAB : A + B = 0) :
    A + (B - A) * (xi - (xi - 1)) / ((xi + 1) - (xi - 1)) = 0 := by
  have h1 : xi - (xi - 1) = 1 := by ring
  have h2 : (xi + 1) - (xi - 1) = 2 := by ring
  rw [h1, h2, mul_one]
  have : B = -A := by linarith
  rw [this]
  ring

theorem affine_neighbors (cj ck xj xk xi : ℚ) (hkj : xk - xj ≠ 0) (hcj : cj ≠ 0)
    (hmid : cj + (ck - cj) * (xi - xj) / (xk - xj) = 0) :
    (cj + (ck - cj) * ((xi - 1) - xj) / (xk - xj) ≠ 0) ∧
      (cj + (ck - cj) * ((xi + 1) - xj) / (xk - xj) ≠ 0) ∧
      (cj + (ck - cj) * ((xi - 1) - xj) / (xk - xj)) +
          (cj + (ck - cj) * ((xi + 1) - xj) / (xk - xj)) = 0 := by
  have hmul : ∀ y : ℚ, (cj + (ck - cj) * y / (xk - xj)) * (xk - xj) =
      cj * (xk - xj) + (ck - cj) * y := by
    intro y
    rw [add_mul, div_mul_cancel₀ _ hkj]
  have hmid' : cj * (xk - xj) + (ck - cj) * (xi - xj) = 0 := by
    rw [← hmul (xi - xj), hmid, zero_mul]
  have hckcj : ck - cj ≠ 0 := by
    intro h0
    rw [h0, zero_mul, add_zero] at hmid'
    rcases mul_eq_zero.mp hmid' with h | h
    · exact hcj h
    · exact hkj h
  refine ⟨?_, ?_, ?_⟩
  · intro hA
    have hA' : cj * (xk - xj) + (ck - cj) * ((xi - 1) - xj) = 0 := by
      rw [← hmul ((xi - 1) - xj), hA, zero_mul]
    have : ck - cj = 0 := by linear_combination hmid' - hA'
    exact hckcj this
  · intro hB
    have hB' : cj * (xk - xj) + (ck - cj) * ((xi + 1) - xj) = 0 := by
      rw [← hmul ((xi + 1) - xj), hB, zero_mul]
    have : ck - cj = 0 := by linear_combination hB' - hmid'
    exact hckcj this
  · have key : ((cj + (ck - cj) * ((xi - 1) - xj) / (xk - xj)) +
        (cj + (ck - cj) * ((xi + 1) - xj) / (xk - xj))) * (xk - xj) = 0 := by
      rw [add_mul, hmul, hmul]
      linear_combination 2 * hmid'
    rcases mul_eq_zero.mp key with h | h
    · exact h
    · exact absurd h hkj

theorem map_range_eq_self {α : Type} (l : List α) (f : Nat → α)
    (h : ∀ t (ht : t < l.length), f t = l[t]) : (List.range l.length).map f = l := by
  apply List.ext_getElem
  · rw [List.length_map, List.length_range]
  · intro t h1 h2
    rw [List.getElem_map, List.getElem_range]
    exact h t h2

/-- Between its two interpolation neighbours (inclusive), a filled channel
agrees with the straight line through those neighbours. -/
theorem fill_channel_affine_on_gap (col : List ℚ) (t j k : Nat)
    (hp : prevNZ col t = some j) (hn : nextNZ col t = some k) (h0 : getQ col t = 0) :
    ∀ u, j ≤ u → u ≤ k →
      getQ (fill_channel col) u =
        getQ col j + (getQ col k - getQ col j) * ((u : ℚ) - (j : ℚ)) / ((k : ℚ) - (j : ℚ)) := by
  obtain ⟨hj1, hcj, hzl⟩ := prevNZ_spec col t j hp
  obtain ⟨hk1, hk2, hck, hzr⟩ := nextNZ_spec col t k hn
  have hz : ∀ u, j < u → u < k → getQ col u = 0 := by
    intro u h1 h2
    rcases Nat.lt_trichotomy u t with h | h | h
    · exact hzl u h1 h
    · rw [h]
      exact h0
    · exact hzr u h h2
  have hd : ((k : ℚ) - (j : ℚ)) ≠ 0 := by
    have hjk : j < k := lt_trans hj1 hk1
    have : (j : ℚ) < (k : ℚ) := by exact_mod_cast hjk
    exact sub_ne_zero.mpr (ne_of_gt this)
  intro u h1 h2
  have hu_len : u < col.length := by omega
  rw [getQ_fill_channel col u hu_len]
  rcases eq_or_lt_of_le h1 with rfl | hju
  · rw [fillVal, if_pos hcj, sub_self, mul_zero, zero_div, add_zero]
  · rcases eq_or_lt_of_le h2 with rfl | huk
    · rw [fillVal, if_pos hck, mul_div_assoc, div_self hd, mul_one]
      ring
    · have hzu : getQ col u = 0 := hz u hju huk
      rw [fillVal, if_neg (by simpa using hzu)]
      have hpu : prevNZ col u = some j :=
        prevNZ_intro col u j hju hcj (fun v hv1 hv2 => hz v hv1 (by omega))
      have hnu : nextNZ col u = some k :=
        nextNZ_intro col u k huk hk2 hck (fun v hv1 hv2 => hz v (by omega) hv2)
      simp only [interpAt, hpu, hnu]

/-- One channel of the gap filler is idempotent. -/
theorem fill_channel_idem (col : List ℚ) :
    fill_channel (fill_channel col) = fill_channel col := by
  by_cases hany : col.any (fun x => decide (x ≠ 0)) = true
  · have hlen' := fill_channel_length col
    have hex : ∃ u, u < col.length ∧ getQ col u ≠ 0 := by
      obtain ⟨x, hx, hxd⟩ := List.any_eq_true.mp hany
      obtain ⟨u, hu, hval⟩ := List.mem_iff_getElem.mp hx
      refine ⟨u, hu, ?_⟩
      rw [getQ_eq_getElem col u hu, hval]
      simpa using hxd
    have hany' : (fill_channel col).any (fun x => decide (x ≠ 0)) = true := by
      obtain ⟨u, hu, hune⟩ := hex
      have hu' : u < (fill_channel col).length := by omega
      have hvne : getQ (fill_channel col) u ≠ 0 := by
        rw [fill_channel_preserves col u hune]
        exact hune
      refine List.any_eq_true.mpr ⟨(fill_channel col)[u], List.getElem_mem hu', ?_⟩
      rw [← getQ_eq_getElem _ u hu']
      simpa using hvne
    conv_lhs => rw [fill_channel]
    rw [if_pos hany']
    apply map_range_eq_self
    intro t ht
    have htc : t < col.length := by omega
    rw [← getQ_eq_getElem _ t ht]
    by_cases hv : getQ (fill_channel col) t ≠ 0
    · rw [fillVal, if_pos hv]
    · push_neg at hv
      rw [fillVal, if_neg (by simpa using hv), hv]
      have hfv : fillVal col t = 0 := by
        rw [← getQ_fill_channel col t htc]
        exact hv
      have h0 : getQ col t = 0 := by
        by_contra hne
        rw [fillVal, if_pos hne] at hfv
        exact hne hfv
      have hI : interpAt col t = 0 := by
        rw [fillVal, if_neg (by simpa using h0)] at hfv
        exact hfv
      cases hp : prevNZ col t with
      | none =>
        cases hn : nextNZ col t with
        | none =>
          exfalso
          obtain ⟨u, hu, hune⟩ := hex
          rcases Nat.lt_trichotomy u t with h | h | h
          · exact hune (prevNZ_none col t hp u h)
          · rw [h] at hune
            exact hune h0
          · exact hune (nextNZ_none col t hn u h hu)
        | some k =>
          exfalso
          obtain ⟨_, _, hck, _⟩ := nextNZ_spec col t k hn
          simp only [interpAt, hp, hn] at hI
          exact hck hI
      | some j =>
        cases hn : nextNZ col t with
        | none =>
          exfalso
          obtain ⟨_, hcj, _⟩ := prevNZ_spec col t j hp
          simp only [interpAt, hp, hn] at hI
          exact hcj hI
        | some k =>
          obtain ⟨hj1, hcj, hzl⟩ := prevNZ_spec col t j hp
          obtain ⟨hk1, hk2, hck, hzr⟩ := nextNZ_spec col t k hn
          simp only [interpAt, hp, hn] at hI
          have hjk : j < k := lt_trans hj1 hk1
          have hd : ((k : ℚ) - (j : ℚ)) ≠ 0 := by
            have : (j : ℚ) < (k : ℚ) := by exact_mod_cast hjk
            exact sub_ne_zero.mpr (ne_of_gt this)
          obtain ⟨hA, hB, hAB⟩ :=
            affine_neighbors (getQ col j) (getQ col k) (j : ℚ) (k : ℚ) (t : ℚ) hd hcj hI
          have h1t : 1 ≤ t := by omega
          have hc1 : (((t - 1 : Nat)) : ℚ) = (t : ℚ) - 1 := by
            rw [Nat.cast_sub h1t, Nat.cast_one]
          have hc2 : (((t + 1 : Nat)) : ℚ) = (t : ℚ) + 1 := by push_cast; ring
          have hA' : getQ (fill_channel col) (t - 1) =
              getQ col j + (getQ col k - getQ col j) * (((t : ℚ) - 1) - (j : ℚ)) /
                ((k : ℚ) - (j : ℚ)) := by
            rw [fill_channel_affine_on_gap col t j k hp hn h0 (t - 1) (by omega) (by omega),
              hc1]
          have hB' : getQ (fill_channel col) (t + 1) =
              getQ col j + (getQ col k - getQ col j) * (((t : ℚ) + 1) - (j : ℚ)) /
                ((k : ℚ) - (j : ℚ)) := by
            rw [fill_channel_affine_on_gap col t j k hp hn h0 (t + 1) (by omega) (by omega),
              hc2]
          have hpu : prevNZ (fill_channel col) t = some (t - 1) :=
            prevNZ_intro _ t (t - 1) (by omega) (by rw [hA']; exact hA)
              (fun v hv1 hv2 => absurd hv1 (by omega))
          have hnu : nextNZ (fill_channel col) t = some (t + 1) :=
            nextNZ_intro _ t (t + 1) (by omega) (by rw [hlen']; omega)
              (by rw [hB']; exact hB) (fun v hv1 hv2 => absurd hv1 (by omega))
          simp only [interpAt, hpu, hnu]
          rw [hA', hB', hc1, hc2]
          exact interp_midpoint_zero _ _ _ hAB
  · have hcol : fill_channel col = col := by rw [fill_channel, if_neg hany]
    rw [hcol, hcol]

/-- C9: gap filling is idempotent — filling an already-filled matrix changes
nothing. -/
theorem c9_fill_zero_gaps_idempotent (m : List (List ℚ)) :
    fill_zero_gaps (fill_zero_gaps m) = fill_zero_gaps m := by
  simp only [fill_zero_gaps, List.map_map]
  apply List.map_congr_left
  intro col _
  simpa [Function.comp] using fill_channel_idem col
